import Mathlib

/-!
Verification development for the wallet-grouping module (`wallet_groups.py`).

Strings from the Python program are modelled as `List Char` (ASCII-faithful:
`str.lower`, character classes of the regexes, `str.title`, `int(...)` parsing
are modelled on the ASCII range, which covers every constant appearing in the
program). Machine floats are modelled as exact rationals `ℚ`, matching the
spec's "decimal" reading of the arithmetic. Network I/O is modelled as an
explicit session oracle mapping a URL and headers to an HTTP outcome.
-/

set_option maxRecDepth 4000

/-- Python strings, modelled as their character sequence. -/
abbrev Str := List Char

/-- ASCII case folding of one character, as `str.lower` acts on ASCII. -/
def lowerChar (c : Char) : Char :=
  if 65 ≤ c.toNat ∧ c.toNat ≤ 90 then Char.ofNat (c.toNat + 32) else c

/-- ASCII upper-casing of one character, as `str.upper` acts on ASCII. -/
def upperChar (c : Char) : Char :=
  if 97 ≤ c.toNat ∧ c.toNat ≤ 122 then Char.ofNat (c.toNat - 32) else c

/-- Python str.lower on ASCII strings. -/
def lowerStr (s : Str) : Str := s.map lowerChar

/-- Python str.upper on ASCII strings. -/
def upperStr (s : Str) : Str := s.map upperChar

/-- Character class `[A-Za-z0-9]` of the regexes in `extract_wallet_group`. -/
def isAlnumCh (c : Char) : Bool :=
  decide ((65 ≤ c.toNat ∧ c.toNat ≤ 90) ∨ (97 ≤ c.toNat ∧ c.toNat ≤ 122) ∨
    (48 ≤ c.toNat ∧ c.toNat ≤ 57))

/-- ASCII letters, the characters `str.title` treats as cased. -/
def isAlphaCh (c : Char) : Bool :=
  decide ((65 ≤ c.toNat ∧ c.toNat ≤ 90) ∨ (97 ≤ c.toNat ∧ c.toNat ≤ 122))

/-- ASCII decimal digits. -/
def isDigitCh (c : Char) : Bool := decide (48 ≤ c.toNat ∧ c.toNat ≤ 57)

/-- Regex class `\s` on the ASCII range: the controls 0x09-0x0D, the
separator controls 0x1C-0x1F, and the space 0x20 — exactly the ASCII
characters Python treats as whitespace, both in `\s` and in the stripping
done by `int(...)`. -/
def isSpaceCh (c : Char) : Bool :=
  decide ((9 ≤ c.toNat ∧ c.toNat ≤ 13) ∨ (28 ≤ c.toNat ∧ c.toNat ≤ 31) ∨
    c.toNat = 32)

/-- Regex class `\w` on the ASCII range. -/
def isWordCh (c : Char) : Bool := isAlnumCh c || c = '_'

/-- Boolean list-prefix test (helper for Python substring and `str.replace`). -/
def isPrefixOfB : Str → Str → Bool
  | [], _ => true
  | _ :: _, [] => false
  | a :: xs, b :: ys => a = b && isPrefixOfB xs ys

/-- Python's substring operator `needle in hay`. -/
def containsSub : Str → Str → Bool
  | hay, needle =>
    isPrefixOfB needle hay ||
      match hay with
      | [] => false
      | _ :: t => containsSub t needle

/-- Left-to-right scan of Python `str.replace` with an explicit scan budget;
every step consumes at least one character of the string and one unit of
budget, so a budget of the string's length never runs out. -/
def pyReplaceFuel (pat repl : Str) : Nat → Str → Str
  | 0, s => s
  | _ + 1, [] => []
  | fuel + 1, c :: t =>
    if pat ≠ [] ∧ isPrefixOfB pat (c :: t) = true then
      repl ++ pyReplaceFuel pat repl fuel ((c :: t).drop pat.length)
    else
      c :: pyReplaceFuel pat repl fuel t

/-- Python `hay.replace(pat, repl)` for a non-empty pattern (replaces every
occurrence, scanning left to right). -/
def pyReplace (pat repl hay : Str) : Str := pyReplaceFuel pat repl hay.length hay

/-- The module-level reference list `KNOWN_WALLET_NAMES`, in source order
(lines 21-71), before the in-place length sort of line 74. -/
def KNOWN_WALLET_NAMES : List Str :=
  ["Trust Wallet".data, "MetaMask".data, "Coinbase Wallet".data, "Ledger".data,
   "Trezor".data, "Exodus".data, "Phantom".data, "Rainbow".data, "SafePal".data,
   "Argent".data, "Zerion".data, "Rabby".data,
   "Binance".data, "Coinbase".data, "Kraken".data, "Kucoin".data, "Bybit".data,
   "OKX".data, "Huobi".data, "Gate.io".data, "Bitfinex".data, "Gemini".data,
   "Ledger Nano".data, "Trezor One".data, "Trezor Model T".data, "KeepKey".data,
   "BitBox".data, "CoolWallet".data,
   "Main".data, "Trading".data, "Savings".data, "Cold Storage".data,
   "Hot Wallet".data, "DeFi".data, "NFT".data, "Gaming".data, "Staking".data,
   "Airdrop".data, "Personal".data, "Business".data, "Family".data,
   "Friends".data]

/-- Stable insertion into a length-descending list: the new element goes in
front of the first element whose length is not larger, so an element inserted
from the left stays before every tied element, exactly the stability guarantee
of Python's `list.sort(key=len, reverse=True)`. -/
def insertByLen (x : Str) : List Str → List Str
  | [] => [x]
  | y :: ys => if y.length ≤ x.length then x :: y :: ys else y :: insertByLen x ys

/-- Stable sort by descending length, modelling
`KNOWN_WALLET_NAMES.sort(key=len, reverse=True)` (line 74). -/
def sortByLenDesc : List Str → List Str
  | [] => []
  | x :: xs => insertByLen x (sortByLenDesc xs)

/-- The reference list as the classifier sees it after line 74. -/
def sortedNames : List Str := sortByLenDesc KNOWN_WALLET_NAMES

/-- The scan of lines 93-95: return the first reference name whose lowered
form occurs in the lowered label. -/
def findKnownName (labelLower : Str) : List Str → Option Str
  | [] => none
  | n :: ns =>
    if containsSub labelLower (lowerStr n) then some n else findKnownName labelLower ns

/-- Shared skeleton of the three fallback regexes: the greedy captured group
`([A-Za-z0-9]+)` anchored at the start, followed by the greedy run `\s+`.
Returns the capture and the remainder after the whitespace run. Because
`[A-Za-z0-9]`, `\s` and the character after the whitespace run are pairwise
disjoint in each of the three patterns, greedy matching without backtracking
is the exact semantics of `re.match` for them. -/
def patCapture (label : Str) : Option (Str × Str) :=
  let t := label.takeWhile isAlnumCh
  let r := label.dropWhile isAlnumCh
  let ws := r.takeWhile isSpaceCh
  let r2 := r.dropWhile isSpaceCh
  if t ≠ [] ∧ ws ≠ [] then some (t, r2) else none

/-- Semantics of re.match for the first pattern (capture group, whitespace,
literal Wallet), returning the capture. -/
def matchWalletPat (label : Str) : Option Str :=
  match patCapture label with
  | some (t, r2) => if isPrefixOfB "Wallet".data r2 then some t else none
  | none => none

/-- Semantics of re.match for the second pattern (capture group, whitespace,
literal Exchange), returning the capture. -/
def matchExchangePat (label : Str) : Option Str :=
  match patCapture label with
  | some (t, r2) => if isPrefixOfB "Exchange".data r2 then some t else none
  | none => none

/-- Semantics of re.match for the third pattern (capture group, whitespace,
word characters, then the dollar anchor), returning the capture. The dollar
anchor matches at the end of the string or just before a single trailing
newline, so after the greedy word run either nothing or one final newline
may remain; backtracking cannot help because word characters, whitespace
and the trailing newline are pairwise disjoint here. -/
def matchTwoWords (label : Str) : Option Str :=
  match patCapture label with
  | some (t, r2) =>
    if r2.takeWhile isWordCh ≠ [] ∧
        (r2.dropWhile isWordCh = [] ∨ r2.dropWhile isWordCh = ['\n']) then
      some t
    else none
  | none => none

/-- The classifier `extract_wallet_group` (lines 80-110): first the known-name scan over the
length-sorted reference list, then the three anchored patterns in order. -/
def extract_wallet_group (label : Str) : Option Str :=
  match findKnownName (lowerStr label) sortedNames with
  | some n => some n
  | none =>
    match matchWalletPat label with
    | some t => some t
    | none =>
      match matchExchangePat label with
      | some t => some t
      | none => matchTwoWords label

/-- One row of the `wallets` table, the 7-tuple
`(id, user_id, network, address, label, last_tx, created_at)` unpacked at
lines 127-128 and 484. -/
structure Wallet where
  wid : Nat
  user_id : Nat
  network : Str
  address : Str
  label : Str
  last_tx : Str
  created_at : Str
deriving DecidableEq

/-- A Python `dict` from group name to wallet list, in insertion order. -/
abbrev GroupMap := List (Str × List Wallet)

/-- Lookup in a `GroupMap`, as Python `groups.get(k)` / `k in groups`. -/
def lookupG : GroupMap → Str → Option (List Wallet)
  | [], _ => none
  | (k0, l0) :: rest, k => if k0 = k then some l0 else lookupG rest k

/-- Lines 132-134: create the bucket on first use, then append at its end. -/
def dictAppendW (d : GroupMap) (k : Str) (w : Wallet) : GroupMap :=
  match d with
  | [] => [(k, [w])]
  | (k0, l0) :: rest =>
    if k0 = k then (k0, l0 ++ [w]) :: rest else (k0, l0) :: dictAppendW rest k w

/-- Python `d[k] = l`: overwrite in place, or append the key at the end. -/
def dictSetW (d : GroupMap) (k : Str) (l : List Wallet) : GroupMap :=
  match d with
  | [] => [(k, l)]
  | (k0, l0) :: rest =>
    if k0 = k then (k0, l) :: rest else (k0, l0) :: dictSetW rest k l

/-- The loop of lines 126-136, carrying the `groups` dict and the `ungrouped`
list. -/
def groupLoop : List Wallet → GroupMap → List Wallet → GroupMap × List Wallet
  | [], gs, un => (gs, un)
  | w :: ws, gs, un =>
    match extract_wallet_group w.label with
    | some g => groupLoop ws (dictAppendW gs g w) un
    | none => groupLoop ws gs (un ++ [w])

/-- The sentinel bucket key of line 139. -/
def UNGROUPED : Str := "_ungrouped".data

/-- The grouping engine `group_wallets_by_name` (lines 112-141). -/
def group_wallets_by_name (ws : List Wallet) : GroupMap :=
  let r := groupLoop ws [] []
  if r.2 ≠ [] then dictSetW r.1 UNGROUPED r.2 else r.1

/-- JSON values, as far as the module inspects them. -/
inductive JVal where
  | jnull
  | jstr (s : Str)
  | jint (n : Int)
  | jnum (q : ℚ)
  | jobj (fields : List (Str × JVal))

/-- Python `dict.get` on a JSON object (first binding wins). -/
def jGet : List (Str × JVal) → Str → Option JVal
  | [], _ => none
  | (k0, v) :: rest, k => if k0 = k then some v else jGet rest k

/-- Python `js.get("status") == "1"`: true exactly when the field is present
and is the string `"1"` (comparison with a missing field or any other value
is simply `False`). -/
def statusFieldIsOne (o : List (Str × JVal)) : Bool :=
  match jGet o "status".data with
  | some (.jstr s) => s = "1".data
  | _ => false

/-- Continuation of a Python integer literal after its first digit: further
digits, with a single underscore allowed only between two digits (PEP 515). -/
def pyDigitsTail : Str → Bool
  | [] => true
  | ['_'] => false
  | '_' :: d :: rest => isDigitCh d && pyDigitsTail rest
  | c :: rest => isDigitCh c && pyDigitsTail rest

/-- The digit grammar Python accepts in `int(...)`: a non-empty digit run
with optional single underscores between digits (PEP 515). -/
def pyDigitsB : Str → Bool
  | [] => false
  | c :: rest => isDigitCh c && pyDigitsTail rest

/-- Python `int(...)` on a string: optional surrounding whitespace, an
optional sign, then a non-empty digit run with single underscores allowed
between digits (PEP 515); anything else raises `ValueError` (modelled as
`none`). -/
def parsePyInt (s : Str) : Option Int :=
  let t := ((s.dropWhile isSpaceCh).reverse.dropWhile isSpaceCh).reverse
  let core : Str → Option Nat := fun ds =>
    if pyDigitsB ds then
      some ((ds.filter isDigitCh).foldl
        (fun acc c => acc * 10 + (c.toNat - 48)) 0)
    else none
  match t with
  | '-' :: ds => (core ds).map (fun n => -(n : Int))
  | '+' :: ds => (core ds).map (fun n => (n : Int))
  | ds => (core ds).map (fun n => (n : Int))

/-- Python `int(x)` truncates a float toward zero. -/
def pyTrunc (q : ℚ) : Int := if 0 ≤ q then q.floor else q.ceil

/-- Python `int(x)` on a JSON value; `none` models the `ValueError`/`TypeError`
raised on anything that is not an int, a float or an integer string. -/
def pyIntOf : JVal → Option Int
  | .jint n => some n
  | .jnum q => some (pyTrunc q)
  | .jstr s => parsePyInt s
  | _ => none

/-- A JSON value used as a number in `*` or `/`; `none` models the `TypeError`
raised when it is not an int or float. -/
def pyToRat : JVal → Option ℚ
  | .jint n => some (n : ℚ)
  | .jnum q => some q
  | _ => none

/-- Outcome of one `session.get(...)`: the request may raise (timeout,
connection error), or deliver a status code and a body on which `.json()`
either raises (`none`) or yields a JSON value. -/
inductive HttpOutcome where
  | exn
  | resp (status : Nat) (body : Option JVal)

/-- The `aiohttp.ClientSession` capability: a response for every URL and
header list. -/
abbrev Session := Str → List (Str × Str) → HttpOutcome

/-- The `coin_ids` table of `get_simple_price` (lines 224-231). -/
def coin_ids : List (Str × Str) :=
  [("ETH".data, "ethereum".data), ("TRX".data, "tron".data),
   ("SOL".data, "solana".data), ("BNB".data, "binancecoin".data),
   ("MATIC".data, "matic-network".data), ("TON".data, "the-open-network".data)]

/-- Association lookup for the string tables of the module. -/
def lookupStr : List (Str × Str) → Str → Option Str
  | [], _ => none
  | (k0, v) :: rest, k => if k0 = k then some v else lookupStr rest k

/-- The CoinGecko URL built at line 236. -/
def priceUrl (coin_id : Str) : Str :=
  "https://api.coingecko.com/api/v3/simple/price?ids=".data ++ coin_id ++
    "&vs_currencies=usd".data

/-- Price lookup `get_simple_price` (lines 222-245): returns whatever
`js.get(coin_id, dict()).get("usd", 0)` yields on success and `0` on any
failure (the bare `except` swallows everything, and a non-200 status falls
through to `return 0`). The result is a `JVal` because the nested `.get` can
hand back a non-numeric JSON value, which only fails later at the caller's
multiplication. -/
def get_simple_price (symbol : Str) (s : Session) : JVal :=
  let coin_id := (lookupStr coin_ids (upperStr symbol)).getD (lowerStr symbol)
  match s (priceUrl coin_id) [] with
  | .exn => .jint 0
  | .resp status body =>
    if status = 200 then
      match body with
      | none => .jint 0
      | some js =>
        match js with
        | .jobj o =>
          match (jGet o coin_id).getD (.jobj []) with
          | .jobj o2 => (jGet o2 "usd".data).getD (.jint 0)
          | _ => .jint 0
        | _ => .jint 0
    else .jint 0

/-- The result dict of `get_wallet_balance` (line 148). -/
structure BalanceResult where
  native_amount : ℚ
  usd_value : ℚ
  token_symbol : Str
deriving DecidableEq

/-- The catch-all result of line 220. -/
def FAIL_BALANCE : BalanceResult := ⟨0, 0, "?".data⟩

/-- The Etherscan URL built at line 164 (with the hard-coded `chain_id = 1`). -/
def ethBalanceUrl (address key : Str) : Str :=
  "https://api.etherscan.io/v2/api?chainId=1&module=account&action=balance&address=".data
    ++ address ++ "&apikey=".data ++ key

/-- The Tronscan URL built at line 182. -/
def tronBalanceUrl (address : Str) : Str :=
  "https://apilist.tronscanapi.com/api/account?address=".data ++ address

/-- The Solscan URL built at line 201. -/
def solBalanceUrl (address : Str) : Str :=
  "https://public-api.solscan.io/account/".data ++ address

/-- The ethereum-branch body of `get_wallet_balance` (lines 156-179): fetch,
check status, parse, price, or fall through to the catch-all result. -/
def ethFetch (address ethK : Str) (s : Session) : BalanceResult :=
  match s (ethBalanceUrl address ethK) [] with
  | .exn => FAIL_BALANCE
  | .resp status body =>
    if status = 200 then
      match body with
      | some (.jobj o) =>
        if statusFieldIsOne o then
          match jGet o "result".data with
          | none => FAIL_BALANCE
          | some v =>
            match pyIntOf v with
            | none => FAIL_BALANCE
            | some n =>
              let balance : ℚ := (n : ℚ) / (10 ^ 18 : ℚ)
              match pyToRat (get_simple_price "ETH".data s) with
              | none => FAIL_BALANCE
              | some p => ⟨balance, balance * p, "ETH".data⟩
        else FAIL_BALANCE
      | _ => FAIL_BALANCE
    else FAIL_BALANCE

/-- The tron-branch body of `get_wallet_balance` (lines 181-195). -/
def tronFetch (address : Str) (s : Session) : BalanceResult :=
  match s (tronBalanceUrl address) [] with
  | .exn => FAIL_BALANCE
  | .resp status body =>
    if status = 200 then
      match body with
      | some (.jobj o) =>
        match pyToRat ((jGet o "balance".data).getD (.jint 0)) with
        | none => FAIL_BALANCE
        | some b =>
          let balance := b / 1000000
          match pyToRat (get_simple_price "TRX".data s) with
          | none => FAIL_BALANCE
          | some p => ⟨balance, balance * p, "TRX".data⟩
      | _ => FAIL_BALANCE
    else FAIL_BALANCE

/-- The solana-branch body of `get_wallet_balance` (lines 197-215). -/
def solFetch (address solK : Str) (s : Session) : BalanceResult :=
  match s (solBalanceUrl address) [("token".data, solK)] with
  | .exn => FAIL_BALANCE
  | .resp status body =>
    if status = 200 then
      match body with
      | some (.jobj o) =>
        match pyToRat ((jGet o "lamports".data).getD (.jint 0)) with
        | none => FAIL_BALANCE
        | some b =>
          let balance := b / (10 ^ 9 : ℚ)
          match pyToRat (get_simple_price "SOL".data s) with
          | none => FAIL_BALANCE
          | some p => ⟨balance, balance * p, "SOL".data⟩
      | _ => FAIL_BALANCE
    else FAIL_BALANCE

/-- Balance lookup `get_wallet_balance` (lines 143-220). Every failure path of the original
— raised request, non-200 status, `.json()` failure, missing or non-"1"
`status` field, missing or non-integer `result`, non-numeric `balance` or
`lamports` or price, unsupported network — lands on the final
`return` of line 220, modelled by `FAIL_BALANCE`; a missing credential
short-circuits at lines 158-159 / 198-199 with symbol `"ETH"` / `"SOL"`. -/
def get_wallet_balance (address network etherscan_key solscan_key : Str)
    (s : Session) : BalanceResult :=
  if network = "ethereum".data ∨ isPrefixOfB "ethereum_".data network then
    if etherscan_key = [] then ⟨0, 0, "ETH".data⟩
    else ethFetch address etherscan_key s
  else if network = "tron".data then tronFetch address s
  else if network = "solana".data then
    if solscan_key = [] then ⟨0, 0, "SOL".data⟩
    else solFetch address solscan_key s
  else FAIL_BALANCE

/-- The `display_names` table of `get_network_display` (lines 249-257). -/
def display_names : List (Str × Str) :=
  [("ethereum".data, "Ethereum".data), ("polygon".data, "Polygon".data),
   ("arbitrum".data, "Arbitrum".data), ("tron".data, "TRON".data),
   ("solana".data, "Solana".data), ("ton".data, "TON".data),
   ("bnb".data, "BNB Chain".data)]

/-- Python `str.title()` on ASCII: upper-case a letter after a non-letter,
lower-case a letter after a letter. -/
def pyTitle (s : Str) : Str :=
  (s.foldl
    (fun (acc : Str × Bool) c =>
      let c2 := if isAlphaCh c then (if acc.2 then lowerChar c else upperChar c) else c
      (acc.1 ++ [c2], isAlphaCh c))
    ([], false)).1

/-- Network display names, `get_network_display` (lines 247-259). -/
def get_network_display (network : Str) : Str :=
  (lookupStr display_names network).getD (pyTitle network)

/-- One entry of `holdings_list` (lines 497-502). -/
structure Holding where
  network : Str
  amount : ℚ
  symbol : Str
  usd : ℚ
deriving DecidableEq

/-- One entry of `wallet_details` (lines 504-511). -/
structure WalletDetail where
  label : Str
  network : Str
  address : Str
  amount : ℚ
  symbol : Str
  usd : ℚ
deriving DecidableEq

/-- The three accumulators of the aggregation loop (lines 479-481). -/
structure AggResult where
  total_usd : ℚ
  holdings_list : List Holding
  wallet_details : List WalletDetail
deriving DecidableEq

/-- The per-wallet body of the loop at lines 483-511, as a function producing
the holding appended for one wallet. -/
def holdingOf (ethK solK : Str) (s : Session) (allNet : List (Str × Str))
    (w : Wallet) : Holding :=
  let b := get_wallet_balance w.address w.network ethK solK s
  ⟨(lookupStr allNet w.network).getD (get_network_display w.network),
   b.native_amount, b.token_symbol, b.usd_value⟩

/-- The per-wallet body of the loop at lines 483-511, as a function producing
the detail entry appended for one wallet. -/
def detailOf (ethK solK : Str) (s : Session) (allNet : List (Str × Str))
    (w : Wallet) : WalletDetail :=
  let b := get_wallet_balance w.address w.network ethK solK s
  ⟨w.label, (lookupStr allNet w.network).getD (get_network_display w.network),
   w.address, b.native_amount, b.token_symbol, b.usd_value⟩

/-- The aggregation loop of `cb_wallet_group_details` (lines 479-511). -/
def aggLoop (ethK solK : Str) (s : Session) (allNet : List (Str × Str)) :
    List Wallet → AggResult → AggResult
  | [], acc => acc
  | w :: ws, acc =>
    let b := get_wallet_balance w.address w.network ethK solK s
    let nd := (lookupStr allNet w.network).getD (get_network_display w.network)
    aggLoop ethK solK s allNet ws
      ⟨acc.total_usd + b.usd_value,
       acc.holdings_list ++ [⟨nd, b.native_amount, b.token_symbol, b.usd_value⟩],
       acc.wallet_details ++
         [⟨w.label, nd, w.address, b.native_amount, b.token_symbol, b.usd_value⟩]⟩

/-- Aggregation over the selected wallets, started from the zero accumulators
of lines 479-481. -/
def cb_aggregate (ethK solK : Str) (s : Session) (allNet : List (Str × Str))
    (ws : List Wallet) : AggResult :=
  aggLoop ethK solK s allNet ws ⟨0, [], []⟩

/-- The four font handles of the renderer (path and size per text role). -/
structure Fonts where
  title : Str × Nat
  subtitle : Str × Nat
  item : Str × Nat
  small : Str × Nat
deriving DecidableEq

/-- The fonts requested at lines 288-291. -/
def preferredFonts : Fonts :=
  ⟨("/usr/share/fonts/truetype/dejavu/DejaVuSans-Bold.ttf".data, 48),
   ("/usr/share/fonts/truetype/dejavu/DejaVuSans.ttf".data, 32),
   ("/usr/share/fonts/truetype/dejavu/DejaVuSans.ttf".data, 24),
   ("/usr/share/fonts/truetype/dejavu/DejaVuSans.ttf".data, 20)⟩

/-- The built-in default font for all four roles (lines 293-296). -/
def defaultFonts : Fonts :=
  ⟨("default".data, 0), ("default".data, 0), ("default".data, 0),
   ("default".data, 0)⟩

/-- The text payloads drawn by `generate_wallet_image`, keeping the raw values
whose display formatting (`:,.2f`, `:.6f`) is pure presentation. -/
inductive TextC where
  | name (s : Str)
  | totalLabel
  | totalValue (q : ℚ)
  | holdingsHeader
  | networkName (s : Str)
  | amountSym (q : ℚ) (sym : Str)
  | usdVal (q : ℚ)
  | noHoldings
  | footer
deriving DecidableEq

/-- Drawing operations issued by `generate_wallet_image`, with their
coordinates; one `gradientLine i` per background row `i` of the loop at
lines 299-303. -/
inductive DrawCmd where
  | gradientLine (i : Nat)
  | rect (x0 y0 x1 y1 : Int)
  | text (x y : Int) (content : TextC)
deriving DecidableEq

/-- The per-holding row loop of lines 323-347, carrying `y_offset`. The USD
value is right-aligned from the measured text width (lines 343-345), supplied
by the `measure` capability of the drawing library. -/
def holdingRows (measure : TextC → Nat) : Int → List Holding → List DrawCmd
  | _, [] => []
  | y, h :: hs =>
    [DrawCmd.rect 40 y (800 - 40) (y + 50),
     DrawCmd.text 60 (y + 5) (.networkName h.network),
     DrawCmd.text 60 (y + 30) (.amountSym h.amount h.symbol),
     DrawCmd.text (800 - 60 - (measure (.usdVal h.usd) : Int)) (y + 15)
       (.usdVal h.usd)]
    ++ holdingRows measure (y + 60) hs

/-- The rendered card: canvas size, fonts used, drawing commands and the
`BytesIO` name of line 356. -/
structure CardImage where
  width : Nat
  height : Nat
  fontsUsed : Fonts
  cmds : List DrawCmd
  fileName : Str
deriving DecidableEq

/-- The renderer `generate_wallet_image` (lines 265-360). `truetypeOk` tells whether the
`ImageFont.truetype` calls of lines 288-291 succeed; on failure the
`except` of lines 292-296 switches every role to the built-in default font
and rendering proceeds. -/
def generate_wallet_image (measure : TextC → Nat) (truetypeOk : Bool)
    (wallet_name : Str) (total_usd : ℚ) (holdings : List Holding) : CardImage :=
  let width : Nat := 800
  let base_height : Nat := 400
  let item_height : Nat := 60
  let height := base_height + holdings.length * item_height
  let fonts := if truetypeOk then preferredFonts else defaultFonts
  let gradient := (List.range height).map DrawCmd.gradientLine
  let header :=
    [DrawCmd.rect 20 20 ((width : Int) - 20) 180,
     DrawCmd.text 40 40 (.name wallet_name),
     DrawCmd.text 40 100 .totalLabel,
     DrawCmd.text 40 125 (.totalValue total_usd)]
  let body :=
    if holdings ≠ [] then
      DrawCmd.text 40 220 .holdingsHeader :: holdingRows measure 260 holdings
    else [DrawCmd.text 40 220 .noHoldings]
  let footer := [DrawCmd.text 40 ((height : Int) - 40) .footer]
  ⟨width, height, fonts, gradient ++ header ++ body ++ footer,
   (wallet_name.map fun c => if c = ' ' then '_' else c) ++ ".png".data⟩

/-- The callback data attached to a group button (line 419): the literal
`"wgroup_"` followed by the group key. -/
def groupButtonData (group_name : Str) : Str := "wgroup_".data ++ group_name

/-- The callback data of the always-present "View All Wallets" button
(line 428). -/
def VIEW_ALL_CALLBACK : Str := "wgroup_all".data

/-- Lines 460-466 of `cb_wallet_group_details`: resolve the callback suffix
to the selected wallets and the display name. The `"all"` suffix takes the
whole wallet list before the group map is ever consulted. -/
def resolveSelection (group_name : Str) (wallets : List Wallet) :
    List Wallet × Str :=
  if group_name = "all".data then (wallets, "All Wallets".data)
  else
    ((lookupG (group_wallets_by_name wallets) group_name).getD [],
     if group_name ≠ UNGROUPED then group_name else "Other Wallets".data)

/-- The data of the text report built at lines 527-540: the message is a pure
formatting of exactly these values. -/
structure TextReport where
  display_name : Str
  total_usd : ℚ
  network_count : Nat
  details : List WalletDetail
deriving DecidableEq

/-- What `cb_wallet_group_details` sends back to the user: an optional alert
(line 469), an optional photo message (lines 514-525, `none` when the `try`
block fails), and the final text report (lines 527-552). -/
structure CallbackResponse where
  alert : Option Str
  photo : Option CardImage
  finalText : Option TextReport
deriving DecidableEq

/-- The handler `cb_wallet_group_details` (lines 444-554). `renderOk` tells whether the
`try` block of lines 514-523 (image generation and photo delivery) succeeds;
its failure is caught at line 524 and only suppresses the photo. -/
def cb_wallet_group_details (data : Str) (wallets : List Wallet)
    (ethK solK : Str) (s : Session) (allNet : List (Str × Str))
    (measure : TextC → Nat) (truetypeOk renderOk : Bool) : CallbackResponse :=
  let group_name := pyReplace "wgroup_".data [] data
  let sel := resolveSelection group_name wallets
  if sel.1 = [] then
    ⟨some "No wallets in this group".data, none, none⟩
  else
    let agg := cb_aggregate ethK solK s allNet sel.1
    ⟨none,
     if renderOk then
       some (generate_wallet_image measure truetypeOk sel.2 agg.total_usd
         agg.holdings_list)
     else none,
     some ⟨sel.2, agg.total_usd, agg.holdings_list.length, agg.wallet_details⟩⟩

/-- Wallets whose label classifies to the group key `k` (proof-layer
predicate over `extract_wallet_group`). -/
def classifiedTo (k : Str) (w : Wallet) : Bool :=
  decide (extract_wallet_group w.label = some k)

/-- Wallets whose label classifies to no group. -/
def unclassified (w : Wallet) : Bool := (extract_wallet_group w.label).isNone

/-- Declarative reading of pattern (a): a non-empty alphanumeric leading
token, a non-empty whitespace run, then the literal word "Wallet"
(case-sensitive), anywhere before the end. -/
def SpecPatWallet (label t : Str) : Prop :=
  t ≠ [] ∧ (∀ c ∈ t, isAlnumCh c = true) ∧
  ∃ ws rest, ws ≠ [] ∧ (∀ c ∈ ws, isSpaceCh c = true) ∧
    label = t ++ ws ++ "Wallet".data ++ rest

/-- Declarative reading of pattern (b), with the literal word "Exchange". -/
def SpecPatExchange (label t : Str) : Prop :=
  t ≠ [] ∧ (∀ c ∈ t, isAlnumCh c = true) ∧
  ∃ ws rest, ws ≠ [] ∧ (∀ c ∈ ws, isSpaceCh c = true) ∧
    label = t ++ ws ++ "Exchange".data ++ rest

/-- Declarative reading of pattern (c) as the code implements it: a
non-empty alphanumeric leading token, a non-empty whitespace run, then a
non-empty run of word characters reaching the end of the label or followed
only by a single trailing newline (the dollar anchor). -/
def SpecPatTwoTokens (label t : Str) : Prop :=
  t ≠ [] ∧ (∀ c ∈ t, isAlnumCh c = true) ∧
  ∃ ws t2 tail, ws ≠ [] ∧ (∀ c ∈ ws, isSpaceCh c = true) ∧
    t2 ≠ [] ∧ (∀ c ∈ t2, isWordCh c = true) ∧
    (tail = [] ∨ tail = ['\n']) ∧ label = t ++ ws ++ t2 ++ tail

/-- Pattern (c) in the claim's own words: the label consists of exactly two
whitespace-separated tokens. -/
def TwoWhitespaceTokens (label : Str) : Prop :=
  ∃ t1 ws t2, t1 ≠ [] ∧ (∀ c ∈ t1, isSpaceCh c = false) ∧
    ws ≠ [] ∧ (∀ c ∈ ws, isSpaceCh c = true) ∧
    t2 ≠ [] ∧ (∀ c ∈ t2, isSpaceCh c = false) ∧ label = t1 ++ ws ++ t2

/-- Two extensionally equal sessions give the same price. -/
theorem get_simple_price_congr (s1 s2 : Session)
    (h : ∀ u hd, s1 u hd = s2 u hd) (symbol : Str) :
    get_simple_price symbol s1 = get_simple_price symbol s2 := by
  simp only [get_simple_price, h]

/-- Two extensionally equal sessions give the same balance. -/
theorem get_wallet_balance_congr (s1 s2 : Session)
    (h : ∀ u hd, s1 u hd = s2 u hd) (address network ethK solK : Str) :
    get_wallet_balance address network ethK solK s1 =
      get_wallet_balance address network ethK solK s2 := by
  simp only [get_wallet_balance, ethFetch, tronFetch, solFetch, h,
    get_simple_price_congr s1 s2 h]

/-- Two extensionally equal sessions drive the aggregation loop to the same
accumulators. -/
theorem aggLoop_congr (s1 s2 : Session)
    (h : ∀ u hd, s1 u hd = s2 u hd) (ethK solK : Str)
    (allNet : List (Str × Str)) (ws : List Wallet) (acc : AggResult) :
    aggLoop ethK solK s1 allNet ws acc = aggLoop ethK solK s2 allNet ws acc := by
  induction ws generalizing acc with
  | nil => rfl
  | cons w ws ih =>
    simp only [aggLoop, get_wallet_balance_congr s1 s2 h]
    exact ih _

/-- C8: aggregation is a deterministic function of the wallet sequence, the
credentials, the network table and the session capability: two runs with
lookups that answer identically produce identical totals, holdings and
per-wallet details. -/
theorem c8_aggregation_deterministic (ws : List Wallet) (ethK solK : Str)
    (allNet : List (Str × Str)) (s1 s2 : Session)
    (h : ∀ u hd, s1 u hd = s2 u hd) :
    cb_aggregate ethK solK s1 allNet ws = cb_aggregate ethK solK s2 allNet ws :=
  aggLoop_congr s1 s2 h ethK solK allNet ws ⟨0, [], []⟩

theorem c8_aggregation_deterministic_witness :
    cb_aggregate "k".data "k".data (fun _ _ => HttpOutcome.exn) []
        [⟨1, 7, "tron".data, "Taddr".data, "Savings".data, [], []⟩] =
      cb_aggregate "k".data "k".data (fun _u _hd => HttpOutcome.exn) []
        [⟨1, 7, "tron".data, "Taddr".data, "Savings".data, [], []⟩] :=
  c8_aggregation_deterministic _ _ _ _ _ _ (fun _ _ => rfl)

/-- C10: the group-details handler resolves the callback suffix "all" to the
full wallet list before the group map is consulted; classification can
produce a group keyed exactly "all" (label "all wallet"), whose button then
carries the same callback data as the "View All Wallets" entry, so selecting
it displays every wallet instead of that group's bucket. -/
theorem c10_wgroup_all_collision :
    extract_wallet_group "all wallet".data = some "all".data ∧
    groupButtonData "all".data = VIEW_ALL_CALLBACK ∧
    (∀ wallets : List Wallet,
      resolveSelection (pyReplace "wgroup_".data [] VIEW_ALL_CALLBACK) wallets =
        (wallets, "All Wallets".data)) ∧
    lookupG (group_wallets_by_name
        [⟨1, 7, "tron".data, "Taddr1".data, "all wallet".data, [], []⟩,
         ⟨2, 7, "tron".data, "Taddr2".data, "MetaMask ETH".data, [], []⟩])
      "all".data =
      some [⟨1, 7, "tron".data, "Taddr1".data, "all wallet".data, [], []⟩] ∧
    resolveSelection "all".data
        [⟨1, 7, "tron".data, "Taddr1".data, "all wallet".data, [], []⟩,
         ⟨2, 7, "tron".data, "Taddr2".data, "MetaMask ETH".data, [], []⟩] =
      ([⟨1, 7, "tron".data, "Taddr1".data, "all wallet".data, [], []⟩,
        ⟨2, 7, "tron".data, "Taddr2".data, "MetaMask ETH".data, [], []⟩],
       "All Wallets".data) := by
  refine ⟨by decide, by decide, ?_, by decide, by decide⟩
  intro wallets
  have hrep : pyReplace "wgroup_".data [] VIEW_ALL_CALLBACK = "all".data := by decide
  rw [hrep]
  simp [resolveSelection]

/-- C6: the card's height is the fixed base height plus one fixed increment
per holding row; with no holdings the height is the base height and a single
"no holdings" placeholder is drawn in place of the row loop. -/
theorem c6_card_height (measure : TextC → Nat) (tOk : Bool) (name : Str)
    (total : ℚ) (holdings : List Holding) :
    (generate_wallet_image measure tOk name total holdings).height =
      400 + holdings.length * 60 ∧
    (holdings = [] →
      (generate_wallet_image measure tOk name total holdings).height = 400 ∧
      DrawCmd.text 40 220 TextC.noHoldings ∈
        (generate_wallet_image measure tOk name total holdings).cmds ∧
      ∀ x y s, DrawCmd.text x y (TextC.networkName s) ∉
        (generate_wallet_image measure tOk name total holdings).cmds) := by
  constructor
  · rfl
  · rintro rfl
    refine ⟨rfl, ?_, ?_⟩
    · simp [generate_wallet_image]
    · intro x y s
      simp [generate_wallet_image, holdingRows]

theorem c6_card_height_witness :
    (generate_wallet_image (fun _ => 0) true "G".data 0 []).height = 400 ∧
    DrawCmd.text 40 220 TextC.noHoldings ∈
      (generate_wallet_image (fun _ => 0) true "G".data 0 []).cmds := by
  have h := c6_card_height (fun _ => 0) true "G".data 0 []
  exact ⟨(h.2 rfl).1, (h.2 rfl).2.1⟩

/-- C7: render failures are isolated. Missing preferred fonts only switch
every text role to the built-in default font — the same canvas and drawing
commands are still produced — and a failure anywhere in the image path only
suppresses the photo: the handler still builds and delivers the same full
text report. -/
theorem c7_render_failure_isolated :
    (∀ (measure : TextC → Nat) (name : Str) (total : ℚ) (hs : List Holding),
      (generate_wallet_image measure true name total hs).fontsUsed =
        preferredFonts ∧
      (generate_wallet_image measure false name total hs).fontsUsed =
        defaultFonts ∧
      (generate_wallet_image measure false name total hs).cmds =
        (generate_wallet_image measure true name total hs).cmds ∧
      (generate_wallet_image measure false name total hs).height =
        (generate_wallet_image measure true name total hs).height) ∧
    (∀ (data : Str) (wallets : List Wallet) (ethK solK : Str) (s : Session)
      (allNet : List (Str × Str)) (measure : TextC → Nat) (tOk rOk : Bool),
      (resolveSelection (pyReplace "wgroup_".data [] data) wallets).1 ≠ [] →
      (cb_wallet_group_details data wallets ethK solK s allNet measure tOk
          rOk).finalText =
        some ⟨(resolveSelection (pyReplace "wgroup_".data [] data) wallets).2,
          (cb_aggregate ethK solK s allNet
            (resolveSelection (pyReplace "wgroup_".data [] data)
              wallets).1).total_usd,
          (cb_aggregate ethK solK s allNet
            (resolveSelection (pyReplace "wgroup_".data [] data)
              wallets).1).holdings_list.length,
          (cb_aggregate ethK solK s allNet
            (resolveSelection (pyReplace "wgroup_".data [] data)
              wallets).1).wallet_details⟩ ∧
      (cb_wallet_group_details data wallets ethK solK s allNet measure tOk
          false).photo = none ∧
      (cb_wallet_group_details data wallets ethK solK s allNet measure tOk
          false).finalText =
        (cb_wallet_group_details data wallets ethK solK s allNet measure tOk
          true).finalText) := by
  constructor
  · intro measure name total hs
    exact ⟨rfl, rfl, rfl, rfl⟩
  · intro data wallets ethK solK s allNet measure tOk rOk hsel
    refine ⟨?_, ?_, ?_⟩ <;>
      simp [cb_wallet_group_details, if_neg hsel]

theorem c7_render_failure_isolated_witness :
    (cb_wallet_group_details "wgroup_all".data
        [⟨1, 7, "tron".data, "Taddr".data, "Savings".data, [], []⟩]
        [] [] (fun _ _ => HttpOutcome.exn) [] (fun _ => 0) true false).photo =
      none :=
  ((c7_render_failure_isolated.2 "wgroup_all".data
    [⟨1, 7, "tron".data, "Taddr".data, "Savings".data, [], []⟩]
    [] [] (fun _ _ => HttpOutcome.exn) [] (fun _ => 0) true false
    (by decide)).2).1

/-- The aggregation loop appends exactly one holding and one detail entry per
wallet, in input order, and accumulates the usd sum. -/
theorem aggLoop_spec (ethK solK : Str) (s : Session)
    (allNet : List (Str × Str)) (ws : List Wallet) (acc : AggResult) :
    aggLoop ethK solK s allNet ws acc =
      ⟨acc.total_usd +
         ((ws.map (holdingOf ethK solK s allNet)).map Holding.usd).sum,
       acc.holdings_list ++ ws.map (holdingOf ethK solK s allNet),
       acc.wallet_details ++ ws.map (detailOf ethK solK s allNet)⟩ := by
  induction ws generalizing acc with
  | nil => simp [aggLoop]
  | cons w ws ih =>
    simp only [aggLoop, ih, List.map_cons, List.map_map, List.sum_cons]
    simp [holdingOf, detailOf, add_assoc]

/-- C4: aggregation yields exactly one holding per selected wallet, in input
order; `total_usd` is the sum of the per-holding usd values; and wallets
whose lookups agree under two sessions keep identical holdings at identical
positions, so one wallet's failure (zeroed holding) never changes the count
or order of the others. -/
theorem c4_aggregation_order_and_sum (ethK solK : Str) (s : Session)
    (allNet : List (Str × Str)) (ws : List Wallet) :
    (cb_aggregate ethK solK s allNet ws).holdings_list =
      ws.map (holdingOf ethK solK s allNet) ∧
    (cb_aggregate ethK solK s allNet ws).wallet_details =
      ws.map (detailOf ethK solK s allNet) ∧
    (cb_aggregate ethK solK s allNet ws).total_usd =
      ((cb_aggregate ethK solK s allNet ws).holdings_list.map
        Holding.usd).sum ∧
    (∀ (s2 : Session) (j : Nat),
      (∀ i, i ≠ j →
        ws[i]?.map (holdingOf ethK solK s allNet) =
          ws[i]?.map (holdingOf ethK solK s2 allNet)) →
      (cb_aggregate ethK solK s2 allNet ws).holdings_list.length =
        (cb_aggregate ethK solK s allNet ws).holdings_list.length ∧
      ∀ i, i ≠ j →
        (cb_aggregate ethK solK s allNet ws).holdings_list[i]? =
          (cb_aggregate ethK solK s2 allNet ws).holdings_list[i]?) := by
  refine ⟨?_, ?_, ?_, ?_⟩
  · simp [cb_aggregate, aggLoop_spec]
  · simp [cb_aggregate, aggLoop_spec]
  · simp [cb_aggregate, aggLoop_spec]
  · intro s2 j hagree
    constructor
    · simp [cb_aggregate, aggLoop_spec]
    · intro i hij
      have h1 : (cb_aggregate ethK solK s allNet ws).holdings_list =
          ws.map (holdingOf ethK solK s allNet) := by
        simp [cb_aggregate, aggLoop_spec]
      have h2 : (cb_aggregate ethK solK s2 allNet ws).holdings_list =
          ws.map (holdingOf ethK solK s2 allNet) := by
        simp [cb_aggregate, aggLoop_spec]
      rw [h1, h2, List.getElem?_map, List.getElem?_map]
      exact hagree i hij

theorem c4_aggregation_order_and_sum_witness :
    (cb_aggregate "k".data "k".data (fun _ _ => HttpOutcome.exn) []
        [⟨1, 7, "tron".data, "t1".data, "Savings".data, [], []⟩]).holdings_list =
      [holdingOf "k".data "k".data (fun _ _ => HttpOutcome.exn) []
        ⟨1, 7, "tron".data, "t1".data, "Savings".data, [], []⟩] ∧
    (cb_aggregate "k".data "k".data (fun _ _ => HttpOutcome.resp 404 none) []
        [⟨1, 7, "tron".data, "t1".data, "Savings".data, [], []⟩]).holdings_list.length =
      (cb_aggregate "k".data "k".data (fun _ _ => HttpOutcome.exn) []
        [⟨1, 7, "tron".data, "t1".data, "Savings".data, [], []⟩]).holdings_list.length := by
  have h := c4_aggregation_order_and_sum "k".data "k".data
    (fun _ _ => HttpOutcome.exn) []
    [⟨1, 7, "tron".data, "t1".data, "Savings".data, [], []⟩]
  refine ⟨h.1, ?_⟩
  refine (h.2.2.2 (fun _ _ => HttpOutcome.resp 404 none) 0 ?_).1
  intro i hi
  cases i with
  | zero => exact absurd rfl hi
  | succ n => rfl

/-- Characterization of a successful scan: the returned name splits the list,
everything before it failed the substring test, and it passes it. -/
theorem findKnownName_eq_some {ll : Str} {l : List Str} {m : Str}
    (h : findKnownName ll l = some m) :
    ∃ pre post, l = pre ++ m :: post ∧
      (∀ x ∈ pre, containsSub ll (lowerStr x) = false) ∧
      containsSub ll (lowerStr m) = true := by
  induction l with
  | nil => simp [findKnownName] at h
  | cons n ns ih =>
    by_cases hc : containsSub ll (lowerStr n) = true
    · rw [findKnownName, if_pos hc] at h
      obtain rfl : n = m := Option.some.inj h
      exact ⟨[], ns, rfl, by simp, hc⟩
    · rw [findKnownName, if_neg hc] at h
      obtain ⟨pre, post, hsplit, hpre, hm⟩ := ih h
      refine ⟨n :: pre, post, by rw [hsplit]; rfl, ?_, hm⟩
      intro x hx
      rcases List.mem_cons.mp hx with rfl | hx2
      · exact Bool.not_eq_true _ ▸ Bool.eq_false_iff.mpr (fun he => hc he)
      · exact hpre x hx2

/-- The scan succeeds whenever some list element passes the substring test. -/
theorem findKnownName_isSome_of_mem {ll n : Str} {l : List Str} (hn : n ∈ l)
    (hc : containsSub ll (lowerStr n) = true) :
    ∃ m, findKnownName ll l = some m := by
  induction l with
  | nil => cases hn
  | cons x xs ih =>
    by_cases hx : containsSub ll (lowerStr x) = true
    · exact ⟨x, by rw [findKnownName, if_pos hx]⟩
    · rcases List.mem_cons.mp hn with rfl | hn2
      · exact absurd hc hx
      · obtain ⟨m, hm⟩ := ih hn2
        exact ⟨m, by rw [findKnownName, if_neg hx]; exact hm⟩

/-- The scan fails when every list element fails the substring test. -/
theorem findKnownName_eq_none {ll : Str} {l : List Str}
    (h : ∀ n ∈ l, containsSub ll (lowerStr n) = false) :
    findKnownName ll l = none := by
  induction l with
  | nil => rfl
  | cons x xs ih =>
    rw [findKnownName, if_neg (by simp [h x (List.mem_cons_self x xs)]), ih]
    intro n hn
    exact h n (List.mem_cons_of_mem x hn)

/-- Stable insertion permutes. -/
theorem insertByLen_perm (x : Str) (l : List Str) :
    List.Perm (insertByLen x l) (x :: l) := by
  induction l with
  | nil => rfl
  | cons y ys ih =>
    rw [insertByLen]
    by_cases hle : y.length ≤ x.length
    · rw [if_pos hle]
    · rw [if_neg hle]
      exact (ih.cons y).trans (List.Perm.swap x y ys)

/-- The length sort permutes the reference list. -/
theorem sortByLenDesc_perm (l : List Str) :
    List.Perm (sortByLenDesc l) l := by
  induction l with
  | nil => rfl
  | cons x xs ih => exact (insertByLen_perm x (sortByLenDesc xs)).trans (ih.cons x)

/-- Membership in the sorted reference list is membership in the original. -/
theorem mem_sortedNames_iff {n : Str} :
    n ∈ sortedNames ↔ n ∈ KNOWN_WALLET_NAMES :=
  (sortByLenDesc_perm KNOWN_WALLET_NAMES).mem_iff

/-- Stable insertion preserves the descending-length invariant. -/
theorem insertByLen_sorted (x : Str) {l : List Str}
    (h : l.Pairwise (fun a b => b.length ≤ a.length)) :
    (insertByLen x l).Pairwise (fun a b => b.length ≤ a.length) := by
  induction l with
  | nil => simp [insertByLen]
  | cons y ys ih =>
    obtain ⟨hy, hys⟩ := List.pairwise_cons.mp h
    rw [insertByLen]
    by_cases hle : y.length ≤ x.length
    · rw [if_pos hle]
      refine List.pairwise_cons.mpr ⟨?_, h⟩
      intro z hz
      rcases List.mem_cons.mp hz with rfl | hz2
      · exact hle
      · exact le_trans (hy z hz2) hle
    · rw [if_neg hle]
      refine List.pairwise_cons.mpr ⟨?_, ih hys⟩
      intro z hz
      have hz3 := (insertByLen_perm x ys).mem_iff.mp hz
      rcases List.mem_cons.mp hz3 with rfl | hz4
      · exact le_of_not_le hle
      · exact hy z hz4

/-- The sorted reference list is length-descending. -/
theorem sortByLenDesc_sorted (l : List Str) :
    (sortByLenDesc l).Pairwise (fun a b => b.length ≤ a.length) := by
  induction l with
  | nil => exact List.Pairwise.nil
  | cons x xs ih => exact insertByLen_sorted x ih

/-- Elements of one length leave stable insertion exactly where the scan of
the original list finds them: inserting an element only jumps over strictly
longer ones. -/
theorem filter_insertByLen (k : Nat) (x : Str) (l : List Str) :
    (insertByLen x l).filter (fun t => decide (t.length = k)) =
      if x.length = k then x :: l.filter (fun t => decide (t.length = k))
      else l.filter (fun t => decide (t.length = k)) := by
  induction l with
  | nil =>
    by_cases hxk : x.length = k <;> simp [insertByLen, List.filter_cons, hxk]
  | cons y ys ih =>
    rw [insertByLen]
    by_cases hle : y.length ≤ x.length
    · rw [if_pos hle]
      by_cases hxk : x.length = k <;> simp [List.filter_cons, hxk]
    · rw [if_neg hle]
      by_cases hxk : x.length = k
      · have hyk : ¬(y.length = k) := by omega
        simp [List.filter_cons, hxk, hyk, ih]
      · simp [List.filter_cons, hxk, ih]

/-- Stability of the length sort: the subsequence of any fixed length is
untouched. -/
theorem filter_sortByLenDesc (k : Nat) (l : List Str) :
    (sortByLenDesc l).filter (fun t => decide (t.length = k)) =
      l.filter (fun t => decide (t.length = k)) := by
  induction l with
  | nil => rfl
  | cons x xs ih =>
    rw [sortByLenDesc, filter_insertByLen]
    by_cases hxk : x.length = k <;> simp [List.filter_cons, hxk, ih]

/-- C1: whenever some reference name occurs case-insensitively in the label,
the classifier returns a matching reference name verbatim (canonical casing);
the returned name has maximal length among the matches, and any distinct
match of equal length sits after it in the original list order (stable
sort tie-break). -/
theorem c1_known_name_longest_match (label : Str)
    (hex : ∃ n ∈ KNOWN_WALLET_NAMES,
      containsSub (lowerStr label) (lowerStr n) = true) :
    ∃ m, extract_wallet_group label = some m ∧ m ∈ KNOWN_WALLET_NAMES ∧
      containsSub (lowerStr label) (lowerStr m) = true ∧
      ∀ n ∈ KNOWN_WALLET_NAMES,
        containsSub (lowerStr label) (lowerStr n) = true →
        n.length ≤ m.length ∧
        (n.length = m.length → n = m ∨ List.Sublist [m, n] KNOWN_WALLET_NAMES) := by
  obtain ⟨n0, hn0mem, hn0c⟩ := hex
  obtain ⟨m, hm⟩ :=
    findKnownName_isSome_of_mem (mem_sortedNames_iff.mpr hn0mem) hn0c
  obtain ⟨pre, post, hsplit, hpre, hmc⟩ := findKnownName_eq_some hm
  have hmmemS : m ∈ sortedNames := by
    rw [hsplit]
    exact List.mem_append_right _ (List.mem_cons_self _ _)
  have hext : extract_wallet_group label = some m := by
    simp only [extract_wallet_group, hm]
  refine ⟨m, hext, mem_sortedNames_iff.mp hmmemS, hmc, ?_⟩
  intro n hnmem hnc
  have hnmemS : n ∈ sortedNames := mem_sortedNames_iff.mpr hnmem
  have hnpre : n ∉ pre := by
    intro hx
    have hfalse := hpre n hx
    rw [hfalse] at hnc
    cases hnc
  have hnsplit : n ∈ m :: post := by
    have h1 : n ∈ pre ++ m :: post := hsplit ▸ hnmemS
    rcases List.mem_append.mp h1 with h2 | h2
    · exact absurd h2 hnpre
    · exact h2
  have hpair : (m :: post).Pairwise (fun a b => b.length ≤ a.length) := by
    have hs0 := sortByLenDesc_sorted KNOWN_WALLET_NAMES
    have hs1 : (pre ++ m :: post).Pairwise (fun a b => b.length ≤ a.length) := by
      rw [← hsplit]
      exact hs0
    exact List.Pairwise.sublist (List.sublist_append_right pre (m :: post)) hs1
  constructor
  · rcases List.mem_cons.mp hnsplit with rfl | hpost
    · exact le_refl _
    · exact (List.pairwise_cons.mp hpair).1 n hpost
  · intro hlen
    rcases List.mem_cons.mp hnsplit with rfl | hpost
    · exact Or.inl rfl
    · right
      have h1 : List.Sublist [m, n] (m :: post) :=
        List.cons_sublist_cons.mpr (List.singleton_sublist.mpr hpost)
      have h2 : List.Sublist [m, n] sortedNames :=
        h1.trans (hsplit ▸ List.sublist_append_right pre (m :: post))
      have h3 := h2.filter (fun t => decide (t.length = m.length))
      have h4 : [m, n].filter (fun t => decide (t.length = m.length)) =
          [m, n] := by
        simp [List.filter_cons, hlen]
      rw [h4] at h3
      have h5 : sortedNames.filter (fun t => decide (t.length = m.length)) =
          KNOWN_WALLET_NAMES.filter (fun t => decide (t.length = m.length)) :=
        filter_sortByLenDesc m.length KNOWN_WALLET_NAMES
      rw [h5] at h3
      exact h3.trans (List.filter_sublist _)

theorem c1_known_name_longest_match_witness :
    (∃ n ∈ KNOWN_WALLET_NAMES,
      containsSub (lowerStr "My Trust Wallet ETH".data) (lowerStr n) = true) ∧
    ∃ m, extract_wallet_group "My Trust Wallet ETH".data = some m ∧
      m ∈ KNOWN_WALLET_NAMES ∧
      containsSub (lowerStr "My Trust Wallet ETH".data) (lowerStr m) = true ∧
      ∀ n ∈ KNOWN_WALLET_NAMES,
        containsSub (lowerStr "My Trust Wallet ETH".data) (lowerStr n) = true →
        n.length ≤ m.length ∧
        (n.length = m.length → n = m ∨ List.Sublist [m, n] KNOWN_WALLET_NAMES) :=
  ⟨by decide, c1_known_name_longest_match "My Trust Wallet ETH".data (by decide)⟩

/-- A successful capture is the non-empty maximal alphanumeric head of the
label, followed by a non-empty whitespace run; the remainder after that run
is returned alongside. -/
theorem patCapture_eq_some {label t r2 : Str}
    (h : patCapture label = some (t, r2)) :
    t = label.takeWhile isAlnumCh ∧ t ≠ [] ∧
    (label.dropWhile isAlnumCh).takeWhile isSpaceCh ≠ [] ∧
    r2 = (label.dropWhile isAlnumCh).dropWhile isSpaceCh := by
  by_cases hc : label.takeWhile isAlnumCh ≠ [] ∧
      (label.dropWhile isAlnumCh).takeWhile isSpaceCh ≠ []
  · rw [patCapture] at h
    simp only [if_pos hc] at h
    injection h with h2
    cases h2
    exact ⟨rfl, hc.1, hc.2, rfl⟩
  · rw [patCapture] at h
    simp only [if_neg hc] at h
    exact Option.noConfusion h

/-- The first pattern only returns captures produced by `patCapture`. -/
theorem matchWalletPat_capture {label t : Str}
    (h : matchWalletPat label = some t) :
    ∃ r2, patCapture label = some (t, r2) := by
  rw [matchWalletPat] at h
  cases hp : patCapture label with
  | none => rw [hp] at h; cases h
  | some p =>
    obtain ⟨t0, r0⟩ := p
    rw [hp] at h
    by_cases hb : isPrefixOfB "Wallet".data r0 = true
    · simp only [if_pos hb] at h
      obtain rfl : t0 = t := Option.some.inj h
      exact ⟨r0, rfl⟩
    · simp only [if_neg hb] at h
      exact Option.noConfusion h

/-- The second pattern only returns captures produced by `patCapture`. -/
theorem matchExchangePat_capture {label t : Str}
    (h : matchExchangePat label = some t) :
    ∃ r2, patCapture label = some (t, r2) := by
  rw [matchExchangePat] at h
  cases hp : patCapture label with
  | none => rw [hp] at h; cases h
  | some p =>
    obtain ⟨t0, r0⟩ := p
    rw [hp] at h
    by_cases hb : isPrefixOfB "Exchange".data r0 = true
    · simp only [if_pos hb] at h
      obtain rfl : t0 = t := Option.some.inj h
      exact ⟨r0, rfl⟩
    · simp only [if_neg hb] at h
      exact Option.noConfusion h

/-- The third pattern only returns captures produced by `patCapture`. -/
theorem matchTwoWords_capture {label t : Str}
    (h : matchTwoWords label = some t) :
    ∃ r2, patCapture label = some (t, r2) := by
  rw [matchTwoWords] at h
  cases hp : patCapture label with
  | none => rw [hp] at h; cases h
  | some p =>
    obtain ⟨t0, r0⟩ := p
    rw [hp] at h
    by_cases hb : r0.takeWhile isWordCh ≠ [] ∧
        (r0.dropWhile isWordCh = [] ∨ r0.dropWhile isWordCh = ['\n'])
    · simp only [if_pos hb] at h
      obtain rfl : t0 = t := Option.some.inj h
      exact ⟨r0, rfl⟩
    · simp only [if_neg hb] at h
      exact Option.noConfusion h

/-- Anything the classifier returns is either a reference name (verbatim) or
a non-empty alphanumeric pattern capture. -/
theorem extract_wallet_group_shape {label g : Str}
    (h : extract_wallet_group label = some g) :
    g ∈ KNOWN_WALLET_NAMES ∨ (g ≠ [] ∧ ∀ c ∈ g, isAlnumCh c = true) := by
  have hcap : (∃ r2, patCapture label = some (g, r2)) →
      g ≠ [] ∧ ∀ c ∈ g, isAlnumCh c = true := by
    rintro ⟨r2, hp⟩
    obtain ⟨ht, hne, -, -⟩ := patCapture_eq_some hp
    refine ⟨hne, ?_⟩
    intro c hc
    rw [ht] at hc
    exact List.mem_takeWhile_imp hc
  cases hfk : findKnownName (lowerStr label) sortedNames with
  | some n =>
    simp only [extract_wallet_group, hfk] at h
    obtain ⟨pre, post, hsplit, -, -⟩ := findKnownName_eq_some hfk
    left
    obtain rfl : n = g := Option.some.inj h
    refine mem_sortedNames_iff.mp ?_
    rw [hsplit]
    exact List.mem_append_right _ (List.mem_cons_self _ _)
  | none =>
    simp only [extract_wallet_group, hfk] at h
    right
    cases hw : matchWalletPat label with
    | some t =>
      simp only [hw] at h
      obtain rfl : t = g := Option.some.inj h
      exact hcap (matchWalletPat_capture hw)
    | none =>
      simp only [hw] at h
      cases he : matchExchangePat label with
      | some t =>
        simp only [he] at h
        obtain rfl : t = g := Option.some.inj h
        exact hcap (matchExchangePat_capture he)
      | none =>
        simp only [he] at h
        exact hcap (matchTwoWords_capture h)

/-- The classifier never returns the sentinel bucket key. -/
theorem extract_wallet_group_ne_ungrouped {label g : Str}
    (h : extract_wallet_group label = some g) : g ≠ UNGROUPED := by
  rcases extract_wallet_group_shape h with hmem | ⟨-, hal⟩
  · intro he
    subst he
    revert hmem
    decide
  · intro he
    subst he
    exact absurd (hal '_' (by decide)) (by decide)

/-- The classifier never returns the empty string. -/
theorem extract_wallet_group_ne_nil {label g : Str}
    (h : extract_wallet_group label = some g) : g ≠ [] := by
  rcases extract_wallet_group_shape h with hmem | ⟨hne, -⟩
  · intro he
    subst he
    revert hmem
    decide
  · exact hne

/-- C9: the classifier returns nothing, a canonical reference name, or a
non-empty alphanumeric capture; it can never return the sentinel
"_ungrouped" (nor the empty string), so a classified group key never
collides with the ungrouped bucket of `group_wallets_by_name`. -/
theorem c9_classifier_range (label g : Str)
    (h : extract_wallet_group label = some g) :
    (g ∈ KNOWN_WALLET_NAMES ∨ (g ≠ [] ∧ ∀ c ∈ g, isAlnumCh c = true)) ∧
    g ≠ UNGROUPED ∧ g ≠ [] :=
  ⟨extract_wallet_group_shape h, extract_wallet_group_ne_ungrouped h,
   extract_wallet_group_ne_nil h⟩

theorem c9_classifier_range_witness :
    (("Xyzzy".data ∈ KNOWN_WALLET_NAMES ∨
      ("Xyzzy".data ≠ [] ∧ ∀ c ∈ "Xyzzy".data, isAlnumCh c = true)) ∧
     "Xyzzy".data ≠ UNGROUPED ∧ "Xyzzy".data ≠ []) :=
  c9_classifier_range "Xyzzy Wallet".data "Xyzzy".data (by decide)

/-- Lookup after a bucket append: the target bucket gains `w` at its end
(created if absent), every other key is untouched. -/
theorem lookupG_dictAppendW (gs : GroupMap) (g k : Str) (w : Wallet) :
    lookupG (dictAppendW gs g w) k =
      if k = g then some ((lookupG gs g).getD [] ++ [w]) else lookupG gs k := by
  induction gs with
  | nil =>
    by_cases hkg : k = g
    · subst hkg
      simp [dictAppendW, lookupG]
    · simp [dictAppendW, lookupG, hkg, Ne.symm hkg]
  | cons p rest ih =>
    obtain ⟨k0, l0⟩ := p
    by_cases h0 : k0 = g
    · subst h0
      by_cases hk : k0 = k
      · subst hk
        simp [dictAppendW, lookupG]
      · simp [dictAppendW, lookupG, hk, Ne.symm hk]
    · by_cases hk : k0 = k
      · subst hk
        simp [dictAppendW, lookupG, h0, Ne.symm h0]
      · simp [dictAppendW, lookupG, h0, hk, ih]

/-- Lookup after a dict assignment. -/
theorem lookupG_dictSetW (d : GroupMap) (k : Str) (l : List Wallet)
    (k2 : Str) :
    lookupG (dictSetW d k l) k2 = if k2 = k then some l else lookupG d k2 := by
  induction d with
  | nil =>
    by_cases hk : k2 = k
    · subst hk
      simp [dictSetW, lookupG]
    · simp [dictSetW, lookupG, hk, Ne.symm hk]
  | cons p rest ih =>
    obtain ⟨k0, l0⟩ := p
    by_cases h0 : k0 = k
    · subst h0
      by_cases hk : k0 = k2
      · subst hk
        simp [dictSetW, lookupG]
      · simp [dictSetW, lookupG, hk, Ne.symm hk]
    · by_cases hk : k0 = k2
      · subst hk
        simp [dictSetW, lookupG, h0, Ne.symm h0]
      · simp [dictSetW, lookupG, h0, hk, ih]

/-- The ungrouped accumulator collects exactly the unclassifiable records,
in input order. -/
theorem groupLoop_snd (ws : List Wallet) (gs : GroupMap) (un : List Wallet) :
    (groupLoop ws gs un).2 = un ++ ws.filter unclassified := by
  induction ws generalizing gs un with
  | nil => simp [groupLoop]
  | cons w ws ih =>
    cases hx : extract_wallet_group w.label with
    | some g =>
      simp only [groupLoop, hx]
      rw [ih]
      simp [List.filter_cons, unclassified, hx]
    | none =>
      simp only [groupLoop, hx]
      rw [ih]
      simp [List.filter_cons, unclassified, hx]

/-- Each bucket of the loop result extends its starting content with exactly
the records classifying to its key, in input order. -/
theorem groupLoop_lookup (ws : List Wallet) (gs : GroupMap) (un : List Wallet)
    (k : Str) :
    lookupG (groupLoop ws gs un).1 k =
      match lookupG gs k with
      | some l0 => some (l0 ++ ws.filter (classifiedTo k))
      | none =>
        if ws.filter (classifiedTo k) = [] then none
        else some (ws.filter (classifiedTo k)) := by
  induction ws generalizing gs un with
  | nil =>
    cases h : lookupG gs k <;> simp [groupLoop, h]
  | cons w ws ih =>
    cases hx : extract_wallet_group w.label with
    | some g =>
      simp only [groupLoop, hx]
      rw [ih]
      by_cases hkg : k = g
      · subst hkg
        have hcl : classifiedTo k w = true := by simp [classifiedTo, hx]
        rw [lookupG_dictAppendW]
        simp only [if_pos rfl]
        cases hg : lookupG gs k <;>
          simp [hg, List.filter_cons, hcl, List.append_assoc]
      · have hcl : classifiedTo k w = false := by
          simp only [classifiedTo, hx, decide_eq_false_iff_not]
          exact fun h => hkg (Option.some.inj h).symm
        rw [lookupG_dictAppendW, if_neg hkg]
        simp [List.filter_cons, hcl]
    | none =>
      simp only [groupLoop, hx]
      rw [ih]
      have hcl : classifiedTo k w = false := by
        simp [classifiedTo, hx]
      simp [List.filter_cons, hcl]

/-- Appending one record to a bucket permutes the flattened content with the
record appended at the end. -/
theorem dictAppendW_flatten (gs : GroupMap) (g : Str) (w : Wallet) :
    List.Perm (((dictAppendW gs g w).map Prod.snd).flatten)
      ((gs.map Prod.snd).flatten ++ [w]) := by
  induction gs with
  | nil => simp [dictAppendW]
  | cons p rest ih =>
    obtain ⟨k0, l0⟩ := p
    by_cases h0 : k0 = g
    · simp only [dictAppendW, if_pos h0, List.map_cons, List.flatten_cons]
      rw [List.append_assoc, List.append_assoc]
      exact List.Perm.append_left l0 List.perm_append_comm
    · simp only [dictAppendW, if_neg h0, List.map_cons, List.flatten_cons]
      rw [List.append_assoc]
      exact List.Perm.append_left l0 ih

/-- The flattened buckets plus the ungrouped accumulator always permute the
starting content plus the processed records. -/
theorem groupLoop_flatten (ws : List Wallet) (gs : GroupMap)
    (un : List Wallet) :
    List.Perm
      (((groupLoop ws gs un).1.map Prod.snd).flatten ++ (groupLoop ws gs un).2)
      ((gs.map Prod.snd).flatten ++ un ++ ws) := by
  induction ws generalizing gs un with
  | nil =>
    simp only [groupLoop, List.append_nil]
    exact List.Perm.refl _
  | cons w ws ih =>
    cases hx : extract_wallet_group w.label with
    | some g =>
      simp only [groupLoop, hx]
      refine (ih (dictAppendW gs g w) un).trans ?_
      refine (List.Perm.append_right ws
        (List.Perm.append_right un (dictAppendW_flatten gs g w))).trans ?_
      rw [List.append_assoc, List.append_assoc, List.append_assoc]
      exact List.Perm.append_left _ (@List.perm_middle _ w un ws).symm
    | none =>
      simp only [groupLoop, hx]
      refine (ih gs (un ++ [w])).trans ?_
      have heq : (gs.map Prod.snd).flatten ++ (un ++ [w]) ++ ws =
          (gs.map Prod.snd).flatten ++ un ++ (w :: ws) := by
        simp [List.append_assoc]
      rw [heq]

/-- Assigning a fresh key appends its content to the flattened buckets. -/
theorem dictSetW_flatten_of_none (d : GroupMap) (k : Str) (l : List Wallet)
    (h : lookupG d k = none) :
    ((dictSetW d k l).map Prod.snd).flatten =
      (d.map Prod.snd).flatten ++ l := by
  induction d with
  | nil => simp [dictSetW]
  | cons p rest ih =>
    obtain ⟨k0, l0⟩ := p
    rw [lookupG] at h
    by_cases h0 : k0 = k
    · rw [if_pos h0] at h
      cases h
    · rw [if_neg h0] at h
      rw [dictSetW, if_neg h0]
      simp only [List.map_cons, List.flatten_cons, ih h, List.append_assoc]

/-- C3: the buckets of `group_wallets_by_name` partition the input — their
flattened contents are a permutation of the input records (each record in
exactly one bucket, exactly once); every bucket is a sublist of the input
(input order preserved); and the "_ungrouped" bucket is present exactly when
some record's label classifies to no group. -/
theorem c3_grouping_partition (ws : List Wallet) :
    List.Perm (((group_wallets_by_name ws).map Prod.snd).flatten) ws ∧
    (∀ k l, lookupG (group_wallets_by_name ws) k = some l →
      List.Sublist l ws) ∧
    ((lookupG (group_wallets_by_name ws) UNGROUPED).isSome = true ↔
      ∃ w ∈ ws, extract_wallet_group w.label = none) := by
  have hun : (groupLoop ws [] []).2 = ws.filter unclassified := by
    rw [groupLoop_snd]
    rfl
  have hlk : ∀ k, lookupG (groupLoop ws [] []).1 k =
      if ws.filter (classifiedTo k) = [] then none
      else some (ws.filter (classifiedTo k)) := by
    intro k
    rw [groupLoop_lookup]
    rfl
  have hU : lookupG (groupLoop ws [] []).1 UNGROUPED = none := by
    rw [hlk]
    have hfe : ws.filter (classifiedTo UNGROUPED) = [] := by
      rw [List.filter_eq_nil_iff]
      intro w _
      simp only [classifiedTo, decide_eq_true_eq]
      exact fun hx => extract_wallet_group_ne_ungrouped hx rfl
    rw [if_pos hfe]
  have hjoin := groupLoop_flatten ws [] []
  simp only [List.map_nil, List.flatten_nil, List.nil_append] at hjoin
  by_cases hne : (groupLoop ws [] []).2 = []
  · have hres : group_wallets_by_name ws = (groupLoop ws [] []).1 := by
      rw [group_wallets_by_name]
      simp [hne]
    rw [hne, List.append_nil] at hjoin
    refine ⟨by rw [hres]; exact hjoin, ?_, ?_⟩
    · intro k l h
      rw [hres, hlk] at h
      by_cases hf : ws.filter (classifiedTo k) = []
      · rw [if_pos hf] at h
        cases h
      · rw [if_neg hf] at h
        obtain rfl : ws.filter (classifiedTo k) = l := Option.some.inj h
        exact List.filter_sublist ws
    · rw [hres, hU]
      simp only [Option.isSome_none, Bool.false_eq_true, false_iff]
      rintro ⟨w, hw, hx⟩
      have hfe : ws.filter unclassified = [] := hun ▸ hne
      have := List.filter_eq_nil_iff.mp hfe w hw
      simp [unclassified, hx] at this
  · have hres : group_wallets_by_name ws =
        dictSetW (groupLoop ws [] []).1 UNGROUPED (groupLoop ws [] []).2 := by
      rw [group_wallets_by_name]
      simp [hne]
    refine ⟨?_, ?_, ?_⟩
    · rw [hres, dictSetW_flatten_of_none _ _ _ hU]
      exact hjoin
    · intro k l h
      rw [hres, lookupG_dictSetW] at h
      by_cases hkU : k = UNGROUPED
      · rw [if_pos hkU] at h
        obtain rfl : (groupLoop ws [] []).2 = l := Option.some.inj h
        rw [hun]
        exact List.filter_sublist ws
      · rw [if_neg hkU, hlk] at h
        by_cases hf : ws.filter (classifiedTo k) = []
        · rw [if_pos hf] at h
          cases h
        · rw [if_neg hf] at h
          obtain rfl : ws.filter (classifiedTo k) = l := Option.some.inj h
          exact List.filter_sublist ws
    · rw [hres, lookupG_dictSetW, if_pos rfl]
      simp only [Option.isSome_some, true_iff]
      have hfne : ws.filter unclassified ≠ [] := hun ▸ hne
      obtain ⟨w, hw⟩ := List.exists_mem_of_ne_nil _ hfne
      obtain ⟨hwmem, hwun⟩ := List.mem_filter.mp hw
      exact ⟨w, hwmem, Option.isNone_iff_eq_none.mp hwun⟩

theorem c3_grouping_partition_witness :
    List.Perm
      (((group_wallets_by_name
        [Wallet.mk 1 7 "tron".data "t1".data "Savings TRX".data [] [],
         Wallet.mk 2 7 "tron".data "t2".data "zzz".data [] []]).map
          Prod.snd).flatten)
      [Wallet.mk 1 7 "tron".data "t1".data "Savings TRX".data [] [],
       Wallet.mk 2 7 "tron".data "t2".data "zzz".data [] []] ∧
    List.Sublist [Wallet.mk 1 7 "tron".data "t1".data "Savings TRX".data [] []]
      [Wallet.mk 1 7 "tron".data "t1".data "Savings TRX".data [] [],
       Wallet.mk 2 7 "tron".data "t2".data "zzz".data [] []] ∧
    (lookupG (group_wallets_by_name
        [Wallet.mk 1 7 "tron".data "t1".data "Savings TRX".data [] [],
         Wallet.mk 2 7 "tron".data "t2".data "zzz".data [] []])
      UNGROUPED).isSome = true := by
  have h := c3_grouping_partition
    [Wallet.mk 1 7 "tron".data "t1".data "Savings TRX".data [] [],
     Wallet.mk 2 7 "tron".data "t2".data "zzz".data [] []]
  refine ⟨h.1, h.2.1 "Savings".data
    [Wallet.mk 1 7 "tron".data "t1".data "Savings TRX".data [] []]
    (by decide), ?_⟩
  exact h.2.2.mpr
    ⟨Wallet.mk 2 7 "tron".data "t2".data "zzz".data [] [], by decide, by decide⟩

/-- Whitespace characters are not alphanumeric. -/
theorem space_not_alnum {c : Char} (h : isSpaceCh c = true) :
    isAlnumCh c = false := by
  simp only [isSpaceCh, decide_eq_true_eq] at h
  simp only [isAlnumCh, decide_eq_false_iff_not]
  omega

/-- Word characters are not whitespace. -/
theorem word_not_space {c : Char} (h : isWordCh c = true) :
    isSpaceCh c = false := by
  simp only [isWordCh, Bool.or_eq_true, isAlnumCh, decide_eq_true_eq] at h
  simp only [isSpaceCh, decide_eq_false_iff_not]
  rcases h with h | h
  · omega
  · subst h
    decide

/-- Alphanumeric characters are not whitespace. -/
theorem alnum_not_space {c : Char} (h : isAlnumCh c = true) :
    isSpaceCh c = false :=
  word_not_space (by simp [isWordCh, h])

/-- Splitting `takeWhile`/`dropWhile` at a boundary where the predicate
flips. -/
theorem takeWhile_dropWhile_of_append {p : Char → Bool} (t r : Str)
    (ht : ∀ c ∈ t, p c = true)
    (hr : ∀ c, r.head? = some c → p c = false) :
    (t ++ r).takeWhile p = t ∧ (t ++ r).dropWhile p = r := by
  induction t with
  | nil =>
    simp only [List.nil_append]
    cases r with
    | nil => exact ⟨rfl, rfl⟩
    | cons c r2 =>
      have hc := hr c rfl
      simp [List.takeWhile_cons, List.dropWhile_cons, hc]
  | cons a t2 ih =>
    have ha := ht a (List.mem_cons_self a t2)
    obtain ⟨ih1, ih2⟩ := ih (fun c hc => ht c (List.mem_cons_of_mem a hc))
    simp [List.takeWhile_cons, List.dropWhile_cons, ha, ih1, ih2]

/-- The head of a `dropWhile` result fails the predicate. -/
theorem head?_dropWhile_not {p : Char → Bool} (l : Str) :
    ∀ c, (l.dropWhile p).head? = some c → p c = false := by
  induction l with
  | nil => intro c h; cases h
  | cons a l2 ih =>
    intro c h
    by_cases hp : p a = true
    · rw [List.dropWhile_cons, if_pos hp] at h
      exact ih c h
    · rw [List.dropWhile_cons, if_neg hp] at h
      obtain rfl : a = c := Option.some.inj h
      exact Bool.eq_false_iff.mpr hp

/-- Boolean prefix test as an existential decomposition. -/
theorem isPrefixOfB_iff (p s : Str) :
    isPrefixOfB p s = true ↔ ∃ r, s = p ++ r := by
  induction p generalizing s with
  | nil => simp [isPrefixOfB]
  | cons a p2 ih =>
    cases s with
    | nil => simp [isPrefixOfB]
    | cons b s2 =>
      simp only [isPrefixOfB, Bool.and_eq_true, decide_eq_true_eq, ih,
        List.cons_append, List.cons.injEq]
      constructor
      · rintro ⟨rfl, r, rfl⟩
        exact ⟨r, rfl, rfl⟩
      · rintro ⟨r, rfl, rfl⟩
        exact ⟨rfl, r, rfl⟩

/-- Full characterization of the shared regex skeleton: a capture is exactly
a decomposition of the label into a non-empty alphanumeric run, a non-empty
whitespace run, and a remainder not starting with whitespace. -/
theorem patCapture_some_iff (label t r2 : Str) :
    patCapture label = some (t, r2) ↔
      t ≠ [] ∧ (∀ c ∈ t, isAlnumCh c = true) ∧
      ∃ ws, ws ≠ [] ∧ (∀ c ∈ ws, isSpaceCh c = true) ∧
        label = t ++ ws ++ r2 ∧
        (∀ c, r2.head? = some c → isSpaceCh c = false) := by
  constructor
  · intro h
    obtain ⟨ht, htne, hwsne, hr2⟩ := patCapture_eq_some h
    refine ⟨htne, ?_, (label.dropWhile isAlnumCh).takeWhile isSpaceCh,
      hwsne, ?_, ?_, ?_⟩
    · intro c hc
      rw [ht] at hc
      exact List.mem_takeWhile_imp hc
    · intro c hc
      exact List.mem_takeWhile_imp hc
    · rw [ht, hr2, List.append_assoc, List.takeWhile_append_dropWhile,
        List.takeWhile_append_dropWhile]
    · intro c hc
      rw [hr2] at hc
      exact head?_dropWhile_not _ c hc
  · rintro ⟨htne, hal, ws, hwsne, hws, heq, hr2⟩
    have heq2 : label = t ++ (ws ++ r2) := by
      rw [heq, List.append_assoc]
    have hhead : ∀ c, (ws ++ r2).head? = some c → isAlnumCh c = false := by
      intro c hc
      cases ws with
      | nil => exact absurd rfl hwsne
      | cons a ws2 =>
        have hac : a = c := Option.some.inj hc
        rw [← hac]
        exact space_not_alnum (hws a (List.mem_cons_self a ws2))
    obtain ⟨e1, e2⟩ :=
      takeWhile_dropWhile_of_append t (ws ++ r2) hal hhead
    obtain ⟨e3, e4⟩ := takeWhile_dropWhile_of_append ws r2 hws hr2
    rw [patCapture, heq2, e1, e2, e3, e4, if_pos ⟨htne, hwsne⟩]

/-- Pattern (a) as a declarative decomposition. -/
theorem matchWalletPat_some_iff (label t : Str) :
    matchWalletPat label = some t ↔ SpecPatWallet label t := by
  constructor
  · intro h
    obtain ⟨r2, hp⟩ := matchWalletPat_capture h
    have hb : isPrefixOfB "Wallet".data r2 = true := by
      simp only [matchWalletPat, hp] at h
      by_cases hb : isPrefixOfB "Wallet".data r2 = true
      · exact hb
      · simp only [if_neg hb] at h
        exact Option.noConfusion h
    obtain ⟨rest, rfl⟩ := (isPrefixOfB_iff _ _).mp hb
    obtain ⟨htne, hal, ws, hwsne, hws, heq, -⟩ :=
      (patCapture_some_iff label t _).mp hp
    exact ⟨htne, hal, ws, rest, hwsne, hws,
      by rw [heq, List.append_assoc, List.append_assoc, List.append_assoc]⟩
  · rintro ⟨htne, hal, ws, rest, hwsne, hws, heq⟩
    have hcap : patCapture label = some (t, "Wallet".data ++ rest) := by
      refine (patCapture_some_iff label t _).mpr
        ⟨htne, hal, ws, hwsne, hws, ?_, ?_⟩
      · simp [heq, List.append_assoc]
      · intro c hc
        obtain rfl : 'W' = c := Option.some.inj hc
        decide
    simp only [matchWalletPat, hcap,
      if_pos ((isPrefixOfB_iff _ _).mpr ⟨rest, rfl⟩)]

/-- Pattern (b) as a declarative decomposition. -/
theorem matchExchangePat_some_iff (label t : Str) :
    matchExchangePat label = some t ↔ SpecPatExchange label t := by
  constructor
  · intro h
    obtain ⟨r2, hp⟩ := matchExchangePat_capture h
    have hb : isPrefixOfB "Exchange".data r2 = true := by
      simp only [matchExchangePat, hp] at h
      by_cases hb : isPrefixOfB "Exchange".data r2 = true
      · exact hb
      · simp only [if_neg hb] at h
        exact Option.noConfusion h
    obtain ⟨rest, rfl⟩ := (isPrefixOfB_iff _ _).mp hb
    obtain ⟨htne, hal, ws, hwsne, hws, heq, -⟩ :=
      (patCapture_some_iff label t _).mp hp
    exact ⟨htne, hal, ws, rest, hwsne, hws,
      by rw [heq, List.append_assoc, List.append_assoc, List.append_assoc]⟩
  · rintro ⟨htne, hal, ws, rest, hwsne, hws, heq⟩
    have hcap : patCapture label = some (t, "Exchange".data ++ rest) := by
      refine (patCapture_some_iff label t _).mpr
        ⟨htne, hal, ws, hwsne, hws, ?_, ?_⟩
      · simp [heq, List.append_assoc]
      · intro c hc
        obtain rfl : 'E' = c := Option.some.inj hc
        decide
    simp only [matchExchangePat, hcap,
      if_pos ((isPrefixOfB_iff _ _).mpr ⟨rest, rfl⟩)]

/-- Pattern (c) as a declarative decomposition. -/
theorem matchTwoWords_some_iff (label t : Str) :
    matchTwoWords label = some t ↔ SpecPatTwoTokens label t := by
  constructor
  · intro h
    obtain ⟨r2, hp⟩ := matchTwoWords_capture h
    have hb : r2.takeWhile isWordCh ≠ [] ∧
        (r2.dropWhile isWordCh = [] ∨ r2.dropWhile isWordCh = ['\n']) := by
      simp only [matchTwoWords, hp] at h
      by_cases hb : r2.takeWhile isWordCh ≠ [] ∧
          (r2.dropWhile isWordCh = [] ∨ r2.dropWhile isWordCh = ['\n'])
      · exact hb
      · simp only [if_neg hb] at h
        exact Option.noConfusion h
    obtain ⟨htne, hal, ws, hwsne, hws, heq, -⟩ :=
      (patCapture_some_iff label t _).mp hp
    refine ⟨htne, hal, ws, r2.takeWhile isWordCh, r2.dropWhile isWordCh,
      hwsne, hws, hb.1, ?_, hb.2, ?_⟩
    · intro c hc
      exact List.mem_takeWhile_imp hc
    · have hr2 : r2.takeWhile isWordCh ++ r2.dropWhile isWordCh = r2 := by
        simp
      rw [heq]
      conv_lhs => rw [← hr2]
      simp [List.append_assoc]
  · rintro ⟨htne, hal, ws, t2, tail, hwsne, hws, ht2ne, ht2, htail, heq⟩
    have htailhead : ∀ c, tail.head? = some c → isWordCh c = false := by
      intro c hc
      rcases htail with rfl | rfl
      · cases hc
      · have hac : '\n' = c := Option.some.inj hc
        rw [← hac]
        decide
    obtain ⟨e1, e2⟩ := takeWhile_dropWhile_of_append t2 tail ht2 htailhead
    have hcap : patCapture label = some (t, t2 ++ tail) := by
      refine (patCapture_some_iff label t _).mpr
        ⟨htne, hal, ws, hwsne, hws, ?_, ?_⟩
      · simp [heq, List.append_assoc]
      · intro c hc
        cases t2 with
        | nil => exact absurd rfl ht2ne
        | cons a t3 =>
          have hac : a = c := Option.some.inj hc
          rw [← hac]
          exact word_not_space (ht2 a (List.mem_cons_self a t3))
    simp only [matchTwoWords, hcap, e1, e2]
    rw [if_pos ⟨ht2ne, htail⟩]

/-- Pattern (a) fails exactly when no decomposition exists. -/
theorem matchWalletPat_none_iff (label : Str) :
    matchWalletPat label = none ↔ ∀ u, ¬SpecPatWallet label u := by
  constructor
  · intro h u hu
    have := (matchWalletPat_some_iff label u).mpr hu
    rw [h] at this
    exact Option.noConfusion this
  · intro h
    cases hval : matchWalletPat label with
    | none => rfl
    | some u => exact absurd ((matchWalletPat_some_iff label u).mp hval) (h u)

/-- Pattern (b) fails exactly when no decomposition exists. -/
theorem matchExchangePat_none_iff (label : Str) :
    matchExchangePat label = none ↔ ∀ u, ¬SpecPatExchange label u := by
  constructor
  · intro h u hu
    have := (matchExchangePat_some_iff label u).mpr hu
    rw [h] at this
    exact Option.noConfusion this
  · intro h
    cases hval : matchExchangePat label with
    | none => rfl
    | some u =>
      exact absurd ((matchExchangePat_some_iff label u).mp hval) (h u)

/-- Pattern (c) fails exactly when no decomposition exists. -/
theorem matchTwoWords_none_iff (label : Str) :
    matchTwoWords label = none ↔ ∀ u, ¬SpecPatTwoTokens label u := by
  constructor
  · intro h u hu
    have := (matchTwoWords_some_iff label u).mpr hu
    rw [h] at this
    exact Option.noConfusion this
  · intro h
    cases hval : matchTwoWords label with
    | none => rfl
    | some u => exact absurd ((matchTwoWords_some_iff label u).mp hval) (h u)

/-- C5 counterexample: the label "A-B CD" contains no reference name and is
exactly two whitespace-separated tokens, yet the classifier returns no
group — pattern (c) of the code demands an alphanumeric first token and a
word-character second token, not arbitrary tokens. -/
theorem c5_counterexample :
    (∀ n ∈ KNOWN_WALLET_NAMES,
      containsSub (lowerStr "A-B CD".data) (lowerStr n) = false) ∧
    TwoWhitespaceTokens "A-B CD".data ∧
    extract_wallet_group "A-B CD".data = none := by
  refine ⟨by decide, ⟨"A-B".data, [' '], "CD".data, by decide⟩, by decide⟩

/-- C5 (amended): when no reference name occurs in the label, the classifier
tries the three anchored patterns in order and returns the first capture:
(a) alphanumeric token, whitespace, literal "Wallet"; (b) alphanumeric
token, whitespace, literal "Exchange"; (c) alphanumeric token, whitespace,
and a non-empty word-character run reaching the end of the label or
followed only by one trailing newline (not arbitrary two
whitespace-separated tokens); it returns `none` when none matches, in
particular for the empty label. -/
theorem c5_fallback_patterns_amended (label : Str)
    (hnone : ∀ n ∈ KNOWN_WALLET_NAMES,
      containsSub (lowerStr label) (lowerStr n) = false) :
    (∀ t, extract_wallet_group label = some t ↔
      (SpecPatWallet label t ∨
       ((∀ u, ¬SpecPatWallet label u) ∧ SpecPatExchange label t) ∨
       ((∀ u, ¬SpecPatWallet label u) ∧ (∀ u, ¬SpecPatExchange label u) ∧
         SpecPatTwoTokens label t))) ∧
    (extract_wallet_group label = none ↔
      ∀ t, ¬SpecPatWallet label t ∧ ¬SpecPatExchange label t ∧
        ¬SpecPatTwoTokens label t) ∧
    (label = [] → extract_wallet_group label = none) := by
  have hfk : findKnownName (lowerStr label) sortedNames = none :=
    findKnownName_eq_none (fun n hn => hnone n (mem_sortedNames_iff.mp hn))
  have hE : extract_wallet_group label =
      match matchWalletPat label with
      | some t => some t
      | none =>
        match matchExchangePat label with
        | some t => some t
        | none => matchTwoWords label := by
    simp only [extract_wallet_group, hfk]
  refine ⟨?_, ?_, fun hl => by subst hl; decide⟩
  · intro t
    cases hw : matchWalletPat label with
    | some a =>
      simp only [hw] at hE
      rw [hE]
      constructor
      · intro h
        obtain rfl : a = t := Option.some.inj h
        exact Or.inl ((matchWalletPat_some_iff label a).mp hw)
      · rintro (hsp | ⟨hnw, -⟩ | ⟨hnw, -, -⟩)
        · have := (matchWalletPat_some_iff label t).mpr hsp
          rw [hw] at this
          exact this
        · exact absurd ((matchWalletPat_some_iff label a).mp hw) (hnw a)
        · exact absurd ((matchWalletPat_some_iff label a).mp hw) (hnw a)
    | none =>
      have hnw := (matchWalletPat_none_iff label).mp hw
      simp only [hw] at hE
      cases he : matchExchangePat label with
      | some a =>
        simp only [he] at hE
        rw [hE]
        constructor
        · intro h
          obtain rfl : a = t := Option.some.inj h
          exact Or.inr (Or.inl ⟨hnw, (matchExchangePat_some_iff label a).mp he⟩)
        · rintro (hsp | ⟨-, hse⟩ | ⟨-, hne, -⟩)
          · exact absurd hsp (hnw t)
          · have := (matchExchangePat_some_iff label t).mpr hse
            rw [he] at this
            exact this
          · exact absurd ((matchExchangePat_some_iff label a).mp he) (hne a)
      | none =>
        have hne := (matchExchangePat_none_iff label).mp he
        simp only [he] at hE
        rw [hE]
        constructor
        · intro h
          exact Or.inr (Or.inr ⟨hnw, hne,
            (matchTwoWords_some_iff label t).mp h⟩)
        · rintro (hsp | ⟨-, hse⟩ | ⟨-, -, hst⟩)
          · exact absurd hsp (hnw t)
          · exact absurd hse (hne t)
          · exact (matchTwoWords_some_iff label t).mpr hst
  · cases hw : matchWalletPat label with
    | some a =>
      simp only [hw] at hE
      rw [hE]
      constructor
      · intro h
        exact Option.noConfusion h
      · intro h
        exact absurd ((matchWalletPat_some_iff label a).mp hw) (h a).1
    | none =>
      have hnw := (matchWalletPat_none_iff label).mp hw
      simp only [hw] at hE
      cases he : matchExchangePat label with
      | some a =>
        simp only [he] at hE
        rw [hE]
        constructor
        · intro h
          exact Option.noConfusion h
        · intro h
          exact absurd ((matchExchangePat_some_iff label a).mp he) (h a).2.1
      | none =>
        have hne := (matchExchangePat_none_iff label).mp he
        simp only [he] at hE
        rw [hE]
        constructor
        · intro h t
          exact ⟨hnw t, hne t, (matchTwoWords_none_iff label).mp h t⟩
        · intro h
          exact (matchTwoWords_none_iff label).mpr (fun u => (h u).2.2)

theorem c5_fallback_patterns_amended_witness :
    SpecPatWallet "Xyzzy Wallet".data "Xyzzy".data ∨
    ((∀ u, ¬SpecPatWallet "Xyzzy Wallet".data u) ∧
      SpecPatExchange "Xyzzy Wallet".data "Xyzzy".data) ∨
    ((∀ u, ¬SpecPatWallet "Xyzzy Wallet".data u) ∧
      (∀ u, ¬SpecPatExchange "Xyzzy Wallet".data u) ∧
      SpecPatTwoTokens "Xyzzy Wallet".data "Xyzzy".data) :=
  ((c5_fallback_patterns_amended "Xyzzy Wallet".data (by decide)).1
    "Xyzzy".data).mp (by decide)

